import Mathlib

/-!
Shallow embedding of the tree module (src/trees.py): an ordered, rooted,
labeled tree with five recursive algorithms (max_path_sum, find_path,
prune_small, label_squarer, preorder) and the Tree constructor's
child-validation.  Python's in-place mutation is modeled by returning the
updated tree; a raised exception is modeled by Except.error carrying the
state the structure was left in at the moment of the raise (the caller of
the Python code still holds a reference to the partially mutated tree).
Unbounded while-loops and the non-structural recursion of prune_small are
modeled with an explicit fuel parameter; the wrappers supply fuel that is
proven sufficient, so the fuel-exhaustion branches are unreachable there.
-/

namespace Trees

/-- The Tree data type of src/trees.py: a label together with an ordered
list of branches.  Labels are Python ints, embedded as Int. -/
inductive Tree where
  | node (label : Int) (branches : List Tree)
deriving Repr

/-- Accessor for the label attribute. -/
def Tree.label : Tree → Int
  | .node l _ => l

/-- Accessor for the branches attribute. -/
def Tree.branches : Tree → List Tree
  | .node _ bs => bs

/-- Embeds Tree.is_leaf: true iff branches is empty. -/
def Tree.isLeaf (t : Tree) : Bool := t.branches.isEmpty

mutual
/-- Embeds max_path_sum: the label if the node is a leaf, otherwise the
label plus the maximum of max_path_sum over the branches. -/
def max_path_sum : Tree → Int
  | .node l [] => l
  | .node l (b :: bs) => l + maxPathList (max_path_sum b) bs
/-- Embeds the running maximum taken by Python's max over the generator
(max_path_sum(b) for b in t.branches): acc is the maximum so far. -/
def maxPathList : Int → List Tree → Int
  | acc, [] => acc
  | acc, c :: cs => maxPathList (max acc (max_path_sum c)) cs
end

mutual
/-- Embeds find_path: the one-element path when the root label matches,
otherwise the scan of the branches; falling through the loop yields
Python's None, embedded as Option.none. -/
def find_path : Tree → Int → Option (List Int)
  | .node l bs, x => if l = x then some [l] else findPathList l bs x
/-- Embeds the for-loop of find_path over the branches of a node whose
label is l.  Python tests the recursive result with the truthiness test
(if path:), under which both None and the empty list fall through, so the
some [] case continues the scan exactly as the none case does. -/
def findPathList : Int → List Tree → Int → Option (List Int)
  | _, [], _ => none
  | l, b :: bs, x =>
    match find_path b x with
    | some (y :: p) => some (l :: y :: p)
    | some [] => findPathList l bs x
    | none => findPathList l bs x
end

/-- Embeds Python's max(t.branches, key=lambda b: b.label): the running
best starts at the first element and is replaced only on a strictly larger
label, so the result is the first branch attaining the maximum label. -/
def maxTree : Tree → List Tree → Tree
  | best, [] => best
  | best, c :: cs => maxTree (if c.label > best.label then c else best) cs

/-- Embeds t.branches.remove(largest): removes the first element whose
label is m.  Python's list.remove compares with ==, which for Tree objects
(no __eq__ defined) is identity; since max returns the first branch whose
label is maximal, the removed position is exactly the first position whose
label equals the maximum, which is what this function removes. -/
def removeFirstLabel (m : Int) : List Tree → List Tree
  | [] => []
  | b :: bs => if b.label = m then bs else b :: removeFirstLabel m bs

/-- Embeds the while-loop of prune_small (while len(t.branches) > n:
remove the branch with the maximum label), with explicit fuel.  When the
list is empty and the condition still holds (possible only for n < 0),
Python's max([]) raises ValueError: this is the Except.error case, and the
payload is the branches list as left at the raise (empty).  The fuel-0
value is never reached from the trim wrapper below. -/
def trimFuel : Nat → Int → List Tree → Except (List Tree) (List Tree)
  | 0, _, l => .ok l
  | f + 1, n, l =>
    if (l.length : Int) > n then
      match l with
      | [] => .error []
      | b :: bs => trimFuel f n (removeFirstLabel (maxTree b bs).label (b :: bs))
    else .ok l

/-- The while-loop of prune_small.  Each iteration removes one element, so
length + 1 units of fuel always suffice (proven below). -/
def trim (n : Int) (l : List Tree) : Except (List Tree) (List Tree) :=
  trimFuel (l.length + 1) n l

mutual
/-- Embeds prune_small with explicit fuel: first the while-loop trims the
node's own branches, then the loop for b in t.branches recurses into each
remaining branch with the same n.  A ValueError raised below propagates,
leaving every already-processed part mutated: the Except.error payload is
the whole subtree as left at that moment.  The fuel-0 value is never
reached from the prune_small wrapper below. -/
def pruneFuel : Nat → Int → Tree → Except Tree Tree
  | 0, _, t => .ok t
  | f + 1, n, .node l bs =>
    match trim n bs with
    | .error bs' => .error (.node l bs')
    | .ok bs' =>
      match pruneListFuel f n bs' with
      | .error bs'' => .error (.node l bs'')
      | .ok bs'' => .ok (.node l bs'')
/-- Embeds the recursion loop for b in t.branches: prune_small(b, n).  On
an error in one branch, the earlier branches keep their pruned form and
the later ones are untouched, as after a propagating Python exception. -/
def pruneListFuel : Nat → Int → List Tree → Except (List Tree) (List Tree)
  | 0, _, l => .ok l
  | _ + 1, _, [] => .ok []
  | f + 1, n, b :: bs =>
    match pruneFuel f n b with
    | .error b' => .error (b' :: bs)
    | .ok b' =>
      match pruneListFuel f n bs with
      | .error bs' => .error (b' :: bs')
      | .ok bs' => .ok (b' :: bs')
end

mutual
/-- Node count of a tree, counting one unit per node and one per list
cons; used only as a fuel bound for prune_small. -/
def tsize : Tree → Nat
  | .node _ bs => tsizeL bs + 1
/-- List version of tsize. -/
def tsizeL : List Tree → Nat
  | [] => 0
  | b :: bs => tsize b + tsizeL bs + 1
end

/-- Embeds prune_small(t, n).  The fuel tsize t is proven sufficient
below: with it the fuel-0 branches of pruneFuel and pruneListFuel are
never taken, so this is the exact behavior of the Python function. -/
def prune_small (t : Tree) (n : Int) : Except Tree Tree :=
  pruneFuel (tsize t) n t

mutual
/-- Embeds label_squarer: replaces the label by its square (t.label**2),
then recurses into every branch in order; the mutated tree is returned. -/
def label_squarer : Tree → Tree
  | .node l bs => .node (l ^ 2) (squareList bs)
/-- Embeds the loop for b in t.branches: label_squarer(b). -/
def squareList : List Tree → List Tree
  | [] => []
  | b :: bs => label_squarer b :: squareList bs
end

mutual
/-- Embeds preorder: the label followed by the preorder sequences of the
branches, concatenated in order. -/
def preorder : Tree → List Int
  | .node l bs => l :: preorderList bs
/-- Embeds the loop for b in t.branches: result.extend(preorder(b)). -/
def preorderList : List Tree → List Int
  | [] => []
  | b :: bs => preorder b ++ preorderList bs
end

/-- A Python value passed as an element of the branches argument of
Tree.__init__: either a Tree instance or some non-Tree value. -/
inductive PyVal where
  | tree (t : Tree)
  | other (v : Int)

/-- Embeds isinstance(branch, Tree). -/
def isTreeInstance : PyVal → Bool
  | .tree _ => true
  | .other _ => false

/-- Embeds Tree.__init__(label, branches): the constructor asserts
isinstance(branch, Tree) for every supplied child (an AssertionError,
modeled as Except.error, if any check fails) and then stores
list(branches).  The validation runs once, here, at construction. -/
def treeInit (label : Int) (branches : List PyVal) : Except Unit Tree :=
  if branches.all isTreeInstance then
    .ok (.node label (branches.filterMap fun b =>
      match b with
      | .tree t => some t
      | .other _ => none))
  else
    .error ()

/-- The pure branch structure of a tree, with labels erased; used to state
that an operation leaves the shape unchanged. -/
inductive Shp where
  | node (children : List Shp)

mutual
/-- Shape of a tree: the branch structure with labels erased. -/
def shapeOf : Tree → Shp
  | .node _ bs => .node (shapeOfL bs)
/-- List version of shapeOf. -/
def shapeOfL : List Tree → List Shp
  | [] => []
  | b :: bs => shapeOf b :: shapeOfL bs
end

mutual
/-- Decidable check that every node of a tree has at most n branches. -/
def branchBound (n : Int) : Tree → Bool
  | .node _ bs => decide ((bs.length : Int) ≤ n) && branchBoundL n bs
/-- List version of branchBound. -/
def branchBoundL (n : Int) : List Tree → Bool
  | [] => true
  | b :: bs => branchBound n b && branchBoundL n bs
end

mutual
/-- Relation between a tree and a possible result of pruning it with
limit n: the label is kept, the surviving branches are a subsequence
(kept) of the original branches, at most n of them survive, and each
survivor is related to its original in the same way. -/
inductive Pruned (n : Int) : Tree → Tree → Prop where
  | mk (l : Int) (bs kept bs' : List Tree) :
      kept.Sublist bs →
      (kept.length : Int) ≤ n →
      PrunedL n kept bs' →
      Pruned n (.node l bs) (.node l bs')
/-- Elementwise version of Pruned on lists of branches. -/
inductive PrunedL (n : Int) : List Tree → List Tree → Prop where
  | nil : PrunedL n [] []
  | cons (b b' : Tree) (bs bs' : List Tree) :
      Pruned n b b' → PrunedL n bs bs' → PrunedL n (b :: bs) (b' :: bs')
end

mutual
/-- Modelled from the spec: the root-to-node label paths of all nodes of
the subtree whose label is x, listed in preorder of the target nodes
(root before children, children in listed order, depth-first).  This
formalizes the spec's phrase "the first node in preorder whose label
equals x": that node's path is the head of this list.  It is a reference
definition written from the spec's words, to be compared with find_path,
which is translated from the source. -/
def specPathsPre : Tree → Int → List (List Int)
  | .node l bs, x =>
    (if l = x then [[l]] else []) ++ (specPathsPreL bs x).map (fun p => l :: p)
/-- List version of specPathsPre: paths into the trees of the list, in
order, each path still relative to the root of the tree it came from. -/
def specPathsPreL : List Tree → Int → List (List Int)
  | [], _ => []
  | b :: bs, x => specPathsPre b x ++ specPathsPreL bs x
end

/-- The concrete example tree of the spec:
Tree(1, [Tree(2, [Tree(4), Tree(5)]), Tree(3)]). -/
def tEx : Tree :=
  .node 1 [.node 2 [.node 4 [], .node 5 []], .node 3 []]


@[simp] theorem label_node (l : Int) (bs : List Tree) : (Tree.node l bs).label = l := rfl

@[simp] theorem branches_node (l : Int) (bs : List Tree) : (Tree.node l bs).branches = bs := rfl

/-- Mutual induction over trees and lists of trees. -/
theorem tree_mutual_ind (P : Tree → Prop) (Q : List Tree → Prop)
    (hnode : ∀ l bs, Q bs → P (Tree.node l bs))
    (hnil : Q [])
    (hcons : ∀ b bs, P b → Q bs → Q (b :: bs)) :
    (∀ t, P t) ∧ (∀ l, Q l) := by
  have h1 : ∀ t, P t := fun t => @Tree.rec P Q hnode hnil hcons t
  refine ⟨h1, fun l => ?_⟩
  induction l with
  | nil => exact hnil
  | cons b bs ih => exact hcons b bs (h1 b) ih

theorem preorderList_eq_join : ∀ l : List Tree, preorderList l = (l.map preorder).flatten := by
  intro l
  induction l with
  | nil => rfl
  | cons b bs ih => simp [preorderList, ih]

theorem label_mem_preorder (t : Tree) : t.label ∈ preorder t := by
  cases t with
  | node l bs => simp [preorder]

theorem maxPathList_ge_acc : ∀ (l : List Tree) (acc : Int), acc ≤ maxPathList acc l := by
  intro l
  induction l with
  | nil => intro acc; simp [maxPathList]
  | cons c cs ih => intro acc; exact le_trans (le_max_left _ _) (ih _)

/-- C2 (amended): for a tree all of whose labels are nonnegative,
max_path_sum t is at least the root label. -/
theorem max_path_sum_ge_label :
    ∀ t : Tree, (∀ x ∈ preorder t, 0 ≤ x) → t.label ≤ max_path_sum t := by
  refine (tree_mutual_ind
    (fun t => (∀ x ∈ preorder t, 0 ≤ x) → t.label ≤ max_path_sum t)
    (fun l => ∀ b ∈ l, (∀ x ∈ preorder b, 0 ≤ x) → b.label ≤ max_path_sum b)
    ?_ ?_ ?_).1
  · intro l bs hQ hpos
    cases bs with
    | nil => simp [max_path_sum]
    | cons b rest =>
      have hb : (∀ x ∈ preorder b, 0 ≤ x) := by
        intro x hx
        exact hpos x (by simp [preorder, preorderList, hx])
      have h1 : b.label ≤ max_path_sum b := hQ b (by simp) hb
      have h2 : (0 : Int) ≤ b.label := hb b.label (label_mem_preorder b)
      have h3 : max_path_sum b ≤ maxPathList (max_path_sum b) rest :=
        maxPathList_ge_acc rest _
      simp only [max_path_sum, label_node]
      omega
  · intro b hb
    exact absurd hb (List.not_mem_nil b)
  · intro b bs hP hQ c hc
    rcases List.mem_cons.mp hc with h | h
    · subst h; exact hP
    · exact hQ c h

/-- C2 counterexample: for the tree Tree(0, [Tree(-1)]), whose only path
sum is -1, max_path_sum is smaller than the root label. -/
theorem max_path_sum_lt_label_example :
    ¬ (Tree.node 0 [Tree.node (-1) []]).label ≤
      max_path_sum (Tree.node 0 [Tree.node (-1) []]) := by decide

/-- C2 witness: the amended claim instantiated on the concrete example tree, whose labels are all nonnegative. -/
theorem max_path_sum_witness_check : (tEx).label ≤ max_path_sum tEx :=
  max_path_sum_ge_label tEx (by decide)

/-- C7: preorder is the label followed by the concatenated preorders of
the branches; its length is one plus the sum of the branch lengths; on the
concrete example tree it is [1, 2, 4, 5, 3]. -/
theorem preorder_spec :
    (∀ t : Tree, preorder t = t.label :: (t.branches.map preorder).flatten ∧
      (preorder t).length =
        1 + (t.branches.map (fun b => (preorder b).length)).sum) ∧
    preorder tEx = [1, 2, 4, 5, 3] := by
  constructor
  · intro t
    cases t with
    | node l bs =>
      constructor
      · simp [preorder, preorderList_eq_join]
      · simp only [preorder, preorderList_eq_join, branches_node, List.length_cons,
          List.length_flatten, List.map_map, Function.comp_def]
        omega
  · rfl

/-- C8: label_squarer replaces every label by its square, position by position (the preorder listing is mapped through squaring), and leaves the branch structure unchanged.  Its Python return value None is the in-place mutation convention, modeled here by returning the updated tree. -/
theorem label_squarer_spec :
    ∀ t : Tree, preorder (label_squarer t) = (preorder t).map (fun x => x ^ 2) ∧
      shapeOf (label_squarer t) = shapeOf t := by
  refine (tree_mutual_ind
    (fun t => preorder (label_squarer t) = (preorder t).map (fun x => x ^ 2) ∧
      shapeOf (label_squarer t) = shapeOf t)
    (fun l => preorderList (squareList l) = (preorderList l).map (fun x => x ^ 2) ∧
      shapeOfL (squareList l) = shapeOfL l)
    ?_ ?_ ?_).1
  · intro l bs hQ
    refine ⟨?_, ?_⟩
    · simp [label_squarer, preorder, hQ.1]
    · simp [label_squarer, shapeOf, hQ.2]
  · exact ⟨rfl, rfl⟩
  · intro b bs hP hQ
    refine ⟨?_, ?_⟩
    · simp [squareList, preorderList, hP.1, hQ.1]
    · simp [squareList, shapeOfL, hP.2, hQ.2]


theorem findPathList_shape : ∀ (l : List Tree) (L x : Int) (p : List Int),
    findPathList L l x = some p → ∃ q, p = L :: q := by
  intro l
  induction l with
  | nil => intro L x p h; simp [findPathList] at h
  | cons b bs ih =>
    intro L x p h
    simp only [findPathList] at h
    cases hb : find_path b x with
    | none =>
      rw [hb] at h
      exact ih L x p h
    | some pb =>
      cases pb with
      | nil =>
        rw [hb] at h
        exact ih L x p h
      | cons y q =>
        rw [hb] at h
        simp at h
        exact ⟨y :: q, h.symm⟩

theorem find_path_shape (t : Tree) (x : Int) (p : List Int)
    (h : find_path t x = some p) : ∃ q, p = t.label :: q := by
  cases t with
  | node l bs =>
    simp only [find_path] at h
    by_cases hlx : l = x
    · simp [hlx] at h
      exact ⟨[], by simp [← h, hlx]⟩
    · rw [if_neg hlx] at h
      exact findPathList_shape bs l x p h

theorem find_path_none_iff : ∀ (t : Tree) (x : Int),
    find_path t x = none ↔ x ∉ preorder t := by
  refine (tree_mutual_ind
    (fun t => ∀ x, find_path t x = none ↔ x ∉ preorder t)
    (fun l => ∀ L x, findPathList L l x = none ↔ x ∉ preorderList l)
    ?_ ?_ ?_).1
  · intro l bs hQ x
    simp only [find_path, preorder]
    by_cases hlx : l = x
    · simp [hlx]
    · rw [if_neg hlx, hQ l x]
      constructor
      · intro h hmem
        rcases List.mem_cons.mp hmem with h1 | h1
        · exact hlx h1.symm
        · exact h h1
      · intro h hmem
        exact h (List.mem_cons_of_mem l hmem)
  · intro L x
    simp [findPathList, preorderList]
  · intro b bs hP hQ L x
    simp only [findPathList, preorderList]
    cases hb : find_path b x with
    | none =>
      have hxb : x ∉ preorder b := (hP x).mp hb
      rw [hQ L x]
      simp [List.mem_append, hxb]
    | some pb =>
      have hxb : x ∈ preorder b := by
        by_contra hmem
        rw [← hP x] at hmem
        rw [hmem] at hb
        exact Option.noConfusion hb
      rcases find_path_shape b x pb hb with ⟨q, rfl⟩
      simp [List.mem_append, hxb]

theorem find_path_getLast : ∀ (t : Tree) (x : Int) (p : List Int),
    find_path t x = some p → p.getLast? = some x := by
  refine (tree_mutual_ind
    (fun t => ∀ x p, find_path t x = some p → p.getLast? = some x)
    (fun l => ∀ L x p, findPathList L l x = some p → p.getLast? = some x)
    ?_ ?_ ?_).1
  · intro l bs hQ x p h
    simp only [find_path] at h
    by_cases hlx : l = x
    · simp [hlx] at h
      simp [← h, hlx]
    · rw [if_neg hlx] at h
      exact hQ l x p h
  · intro L x p h
    simp [findPathList] at h
  · intro b bs hP hQ L x p h
    simp only [findPathList] at h
    cases hb : find_path b x with
    | none =>
      rw [hb] at h
      exact hQ L x p h
    | some pb =>
      cases pb with
      | nil =>
        rw [hb] at h
        exact hQ L x p h
      | cons y q =>
        rw [hb] at h
        simp at h
        have hy : (y :: q).getLast? = some x := hP x (y :: q) hb
        rw [← h]
        rw [List.getLast?_cons_cons]
        exact hy

theorem specPathsPre_shape (t : Tree) (x : Int) (p : List Int)
    (hp : p ∈ specPathsPre t x) : ∃ q, p = t.label :: q := by
  cases t with
  | node l bs =>
    simp only [specPathsPre, List.mem_append] at hp
    rcases hp with h | h
    · by_cases hlx : l = x
      · simp [hlx] at h
        exact ⟨[], by simp [h, hlx]⟩
      · simp [hlx] at h
    · rcases List.mem_map.mp h with ⟨q, _, rfl⟩
      exact ⟨q, rfl⟩

theorem find_path_eq_spec_head : ∀ (t : Tree) (x : Int),
    find_path t x = (specPathsPre t x).head? := by
  refine (tree_mutual_ind
    (fun t => ∀ x, find_path t x = (specPathsPre t x).head?)
    (fun l => ∀ L x, findPathList L l x =
      ((specPathsPreL l x).head?).map (fun p => L :: p))
    ?_ ?_ ?_).1
  · intro l bs hQ x
    simp only [find_path, specPathsPre]
    by_cases hlx : l = x
    · simp [hlx]
    · rw [if_neg hlx, if_neg hlx, hQ l x]
      simp [List.head?_map]
  · intro L x
    simp [findPathList, specPathsPreL]
  · intro b bs hP hQ L x
    simp only [findPathList, specPathsPreL]
    cases hsp : specPathsPre b x with
    | nil =>
      have hb : find_path b x = none := by rw [hP x, hsp]; rfl
      rw [hb, hQ L x]
      simp [hsp]
    | cons p0 rest =>
      have hb : find_path b x = some p0 := by rw [hP x, hsp]; rfl
      rcases specPathsPre_shape b x p0 (by rw [hsp]; exact List.mem_cons_self p0 rest) with
        ⟨q, rfl⟩
      rw [hb]
      simp [hsp]


theorem maxTree_mem : ∀ (cs : List Tree) (b : Tree), maxTree b cs ∈ b :: cs := by
  intro cs
  induction cs with
  | nil => intro b; simp [maxTree]
  | cons c cs ih =>
    intro b
    simp only [maxTree]
    have h := ih (if c.label > b.label then c else b)
    rcases List.mem_cons.mp h with h1 | h1
    · rw [h1]
      by_cases hc : c.label > b.label
      · simp [hc]
      · simp [hc]
    · exact List.mem_cons_of_mem _ (List.mem_cons_of_mem _ h1)

theorem maxTree_label_mem (cs : List Tree) (b : Tree) :
    (maxTree b cs).label ∈ (b :: cs).map Tree.label :=
  List.mem_map_of_mem Tree.label (maxTree_mem cs b)

theorem removeFirstLabel_sublist : ∀ (l : List Tree) (m : Int),
    (removeFirstLabel m l).Sublist l := by
  intro l m
  induction l with
  | nil => simp [removeFirstLabel]
  | cons b bs ih =>
    simp only [removeFirstLabel]
    by_cases hb : b.label = m
    · rw [if_pos hb]
      exact (List.Sublist.refl bs).cons b
    · rw [if_neg hb]
      exact ih.cons₂ b

theorem removeFirstLabel_length : ∀ (l : List Tree) (m : Int),
    m ∈ l.map Tree.label → (removeFirstLabel m l).length + 1 = l.length := by
  intro l m
  induction l with
  | nil => intro h; simp at h
  | cons b bs ih =>
    intro h
    simp only [removeFirstLabel]
    by_cases hb : b.label = m
    · rw [if_pos hb]; rfl
    · rw [if_neg hb]
      have hm : m ∈ bs.map Tree.label := by
        simp only [List.map_cons, List.mem_cons] at h
        rcases h with h1 | h1
        · exact absurd h1.symm hb
        · exact h1
      simp only [List.length_cons]
      rw [← ih hm]

theorem trimFuel_ok_sublist : ∀ (f : Nat) (n : Int) (l l' : List Tree),
    trimFuel f n l = .ok l' → l'.Sublist l := by
  intro f
  induction f with
  | zero =>
    intro n l l' h
    simp [trimFuel] at h
    rw [← h]
  | succ f ih =>
    intro n l l' h
    simp only [trimFuel] at h
    by_cases hlen : (l.length : Int) > n
    · rw [if_pos hlen] at h
      cases l with
      | nil => simp at h
      | cons b bs =>
        exact (ih n _ l' h).trans (removeFirstLabel_sublist (b :: bs) (maxTree b bs).label)
    · rw [if_neg hlen] at h
      simp at h
      rw [← h]

theorem trimFuel_total : ∀ (f : Nat) (n : Int) (l : List Tree), 0 ≤ n →
    l.length < f →
    ∃ l', trimFuel f n l = .ok l' ∧ (l'.length : Int) ≤ n ∧ l'.Sublist l := by
  intro f
  induction f with
  | zero => intro n l _ h; omega
  | succ f ih =>
    intro n l hn hf
    by_cases hlen : (l.length : Int) > n
    · cases l with
      | nil => simp at hlen; omega
      | cons b bs =>
        have hrm := removeFirstLabel_length (b :: bs) (maxTree b bs).label
          (maxTree_label_mem bs b)
        have hlt : (removeFirstLabel (maxTree b bs).label (b :: bs)).length < f := by
          simp only [List.length_cons] at hrm hf
          omega
        rcases ih n _ hn hlt with ⟨l', h1, h2, h3⟩
        refine ⟨l', ?_, h2, h3.trans (removeFirstLabel_sublist (b :: bs) _)⟩
        simp only [trimFuel]
        rw [if_pos hlen]
        exact h1
    · refine ⟨l, ?_, by omega, List.Sublist.refl l⟩
      simp only [trimFuel]
      rw [if_neg hlen]

theorem trim_ok_sublist {n : Int} {l l' : List Tree} (h : trim n l = .ok l') :
    l'.Sublist l :=
  trimFuel_ok_sublist (l.length + 1) n l l' h

theorem trim_total (n : Int) (l : List Tree) (hn : 0 ≤ n) :
    ∃ l', trim n l = .ok l' ∧ (l'.length : Int) ≤ n ∧ l'.Sublist l :=
  trimFuel_total (l.length + 1) n l hn (Nat.lt_succ_self _)

theorem tsizeL_sublist_le : ∀ {l₁ l₂ : List Tree}, l₁.Sublist l₂ →
    tsizeL l₁ ≤ tsizeL l₂ := by
  intro l₁ l₂ h
  induction h with
  | slnil => exact le_refl _
  | cons a h ih => simp only [tsizeL]; omega
  | cons₂ a h ih => simp only [tsizeL]; omega

theorem tsize_pos (t : Tree) : 1 ≤ tsize t := by
  cases t with
  | node l bs => simp [tsize]


theorem pruneFuel_total : ∀ f : Nat,
    (∀ (n : Int) (t : Tree), 0 ≤ n → tsize t ≤ f →
      ∃ t', pruneFuel f n t = .ok t' ∧ branchBound n t' = true ∧ Pruned n t t') ∧
    (∀ (n : Int) (l : List Tree), 0 ≤ n → tsizeL l ≤ f →
      ∃ l', pruneListFuel f n l = .ok l' ∧ branchBoundL n l' = true ∧
        l'.length = l.length ∧ PrunedL n l l') := by
  intro f
  induction f with
  | zero =>
    constructor
    · intro n t hn ht
      have := tsize_pos t
      omega
    · intro n l hn hl
      cases l with
      | nil => exact ⟨[], rfl, rfl, rfl, PrunedL.nil⟩
      | cons b bs =>
        simp only [tsizeL] at hl
        omega
  | succ f ih =>
    constructor
    · intro n t hn ht
      cases t with
      | node l bs =>
        have hbs : tsizeL bs ≤ f := by
          simp only [tsize] at ht
          omega
        rcases trim_total n bs hn with ⟨kept, htrim, hklen, hsub⟩
        have hkept : tsizeL kept ≤ f := le_trans (tsizeL_sublist_le hsub) hbs
        rcases ih.2 n kept hn hkept with ⟨bs'', hplist, hbound, hlen, hpl⟩
        refine ⟨.node l bs'', ?_, ?_, Pruned.mk l bs kept bs'' hsub hklen hpl⟩
        · simp only [pruneFuel, htrim, hplist]
        · simp only [branchBound, hbound, Bool.and_true, decide_eq_true_eq]
          omega
    · intro n l hn hl
      cases l with
      | nil => exact ⟨[], rfl, rfl, rfl, PrunedL.nil⟩
      | cons b bs =>
        have hb : tsize b ≤ f := by simp only [tsizeL] at hl; omega
        have hbs : tsizeL bs ≤ f := by simp only [tsizeL] at hl; omega
        rcases ih.1 n b hn hb with ⟨b', hpb, hbb, hprb⟩
        rcases ih.2 n bs hn hbs with ⟨bs', hpbs, hbbs, hlbs, hprbs⟩
        refine ⟨b' :: bs', ?_, ?_, ?_, PrunedL.cons b b' bs bs' hprb hprbs⟩
        · simp only [pruneListFuel]
          rw [hpb, hpbs]
        · simp [branchBoundL, hbb, hbbs]
        · simp [hlbs]

theorem pruneFuel_stable : ∀ f : Nat,
    (∀ (n : Int) (t : Tree) (g : Nat), tsize t ≤ f → f ≤ g →
      pruneFuel f n t = pruneFuel g n t) ∧
    (∀ (n : Int) (l : List Tree) (g : Nat), tsizeL l ≤ f → f ≤ g →
      pruneListFuel f n l = pruneListFuel g n l) := by
  intro f
  induction f with
  | zero =>
    constructor
    · intro n t g ht _
      have := tsize_pos t
      omega
    · intro n l g hl _
      cases l with
      | cons b bs => simp only [tsizeL] at hl; omega
      | nil =>
        cases g with
        | zero => rfl
        | succ g => rfl
  | succ f ih =>
    constructor
    · intro n t g ht hg
      cases g with
      | zero => omega
      | succ g =>
        cases t with
        | node l bs =>
          have hbs : tsizeL bs ≤ f := by simp only [tsize] at ht; omega
          simp only [pruneFuel]
          cases htrim : trim n bs with
          | error bs' => rfl
          | ok bs' =>
            have hb' : tsizeL bs' ≤ f :=
              le_trans (tsizeL_sublist_le (trim_ok_sublist htrim)) hbs
            dsimp only
            rw [ih.2 n bs' g hb' (by omega)]
    · intro n l g hl hg
      cases g with
      | zero => omega
      | succ g =>
        cases l with
        | nil => rfl
        | cons b bs =>
          have hb : tsize b ≤ f := by simp only [tsizeL] at hl; omega
          have hbs : tsizeL bs ≤ f := by simp only [tsizeL] at hl; omega
          simp only [pruneListFuel]
          rw [ih.1 n b g hb (by omega), ih.2 n bs g hbs (by omega)]

theorem pruneListFuel_ok_forall₂ : ∀ (f : Nat) (n : Int) (l l' : List Tree),
    tsizeL l ≤ f → pruneListFuel f n l = .ok l' →
    List.Forall₂ (fun b b' => prune_small b n = .ok b') l l' := by
  intro f
  induction f with
  | zero =>
    intro n l l' hl h
    cases l with
    | nil =>
      simp only [pruneListFuel] at h
      injection h with h2
      subst h2
      exact List.Forall₂.nil
    | cons b bs => simp only [tsizeL] at hl; omega
  | succ f ih =>
    intro n l l' hl h
    cases l with
    | nil =>
      simp only [pruneListFuel] at h
      injection h with h2
      subst h2
      exact List.Forall₂.nil
    | cons b bs =>
      have hb : tsize b ≤ f := by simp only [tsizeL] at hl; omega
      have hbs : tsizeL bs ≤ f := by simp only [tsizeL] at hl; omega
      simp only [pruneListFuel] at h
      cases hpb : pruneFuel f n b with
      | error b' =>
        rw [hpb] at h
        dsimp only at h
        simp at h
      | ok b' =>
        rw [hpb] at h
        dsimp only at h
        cases hpbs : pruneListFuel f n bs with
        | error bs' =>
          rw [hpbs] at h
          dsimp only at h
          simp at h
        | ok bs' =>
          rw [hpbs] at h
          dsimp only at h
          injection h with h2
          subst h2
          refine List.Forall₂.cons ?_ (ih n bs bs' hbs hpbs)
          show pruneFuel (tsize b) n b = .ok b'
          rw [(pruneFuel_stable (tsize b)).1 n b f (le_refl _) hb]
          exact hpb


/-- C5: when x occurs somewhere in the tree, find_path returns a label sequence whose first element is the root label and whose last element is x, and that sequence is the root-to-node path of the first node with label x in preorder: the head of specPathsPre, the preorder-ordered list of all occurrence paths. -/
theorem find_path_found_spec (t : Tree) (x : Int) (hx : x ∈ preorder t) :
    ∃ p, find_path t x = some p ∧ p.head? = some t.label ∧ p.getLast? = some x ∧
      (specPathsPre t x).head? = some p := by
  cases hfp : find_path t x with
  | none => exact absurd hx ((find_path_none_iff t x).mp hfp)
  | some p =>
    rcases find_path_shape t x p hfp with ⟨q, rfl⟩
    refine ⟨t.label :: q, rfl, rfl, find_path_getLast t x _ hfp, ?_⟩
    rw [← find_path_eq_spec_head t x]
    exact hfp

/-- C5 witness: the claim instantiated at the example tree and label 5, which occurs in it. -/
theorem find_path_found_witness :
    ∃ p, find_path tEx 5 = some p ∧ p.head? = some (tEx).label ∧
      p.getLast? = some 5 ∧ (specPathsPre tEx 5).head? = some p :=
  find_path_found_spec tEx 5 (by decide)

/-- C6: find_path returns none exactly when no node of the subtree has label x, and every returned path is nonempty, so the absent signal is distinguishable from every valid path result; the not-found case falls through to None rather than raising. -/
theorem find_path_absent_spec (t : Tree) (x : Int) :
    (find_path t x = none ↔ x ∉ preorder t) ∧
      ∀ p, find_path t x = some p → p ≠ [] := by
  refine ⟨find_path_none_iff t x, fun p hp => ?_⟩
  rcases find_path_shape t x p hp with ⟨q, rfl⟩
  simp

/-- C6 witness: label 9 is absent from the example tree, so find_path returns the absent signal there. -/
theorem find_path_absent_witness : find_path tEx 9 = none :=
  (find_path_absent_spec tEx 9).1.mpr (by decide)

/-- C1 counterexample: the while-loop of prune_small removes the branch with the MAXIMUM label, so on the example tree with n = 1 the pruned tree is Tree(1, [Tree(2, [Tree(4)])]), which differs from the claimed Tree(1, [Tree(2, [Tree(5)])]). -/
theorem prune_small_claimed_result_false :
    prune_small tEx 1 = .ok (.node 1 [.node 2 [.node 4 []]]) ∧
      (Tree.node 1 [Tree.node 2 [Tree.node 4 []]] : Tree) ≠
        Tree.node 1 [Tree.node 2 [Tree.node 5 []]] :=
  ⟨rfl, by simp⟩

/-- C1 (amended): after prune_small(t, 1) on the example tree, the root's branches equal [Tree(2, [Tree(4)])]: the root keeps only the branch labeled 2 (its branch labeled 3, the maximum, is removed), and that branch keeps only its child labeled 4 (its child labeled 5, the maximum, is removed). -/
theorem prune_small_concrete :
    prune_small tEx 1 = .ok (.node 1 [.node 2 [.node 4 []]]) ∧
      (Tree.node 1 [Tree.node 2 [Tree.node 4 []]]).branches =
        [Tree.node 2 [Tree.node 4 []]] :=
  ⟨rfl, rfl⟩

/-- C3 counterexample: with n = -1 the while-loop of prune_small first empties the branches of Tree(1, [Tree(2)]) and then evaluates max on the empty list, which raises: the call fails with the tree already changed, so the claim that a failing mutating call leaves the tree unchanged is false. -/
theorem prune_small_negative_partial_mutation :
    prune_small (.node 1 [.node 2 []]) (-1) = .error (.node 1 []) ∧
      (Tree.node 1 [] : Tree) ≠ Tree.node 1 [Tree.node 2 []] :=
  ⟨rfl, by simp⟩

/-- C3 (amended): for every well-formed tree and every integer n greater or equal 0, prune_small completes without error.  label_squarer has no error path at all: in the embedding it is a total function on trees. -/
theorem prune_small_total (t : Tree) (n : Int) (hn : 0 ≤ n) :
    ∃ t', prune_small t n = .ok t' := by
  rcases (pruneFuel_total (tsize t)).1 n t hn (le_refl _) with ⟨t', h, _, _⟩
  exact ⟨t', h⟩

/-- C3 witness: the amended claim instantiated at a concrete tree and n = 0. -/
theorem prune_small_total_witness :
    ∃ t', prune_small (Tree.node 7 [Tree.node 8 []]) 0 = .ok t' :=
  prune_small_total (Tree.node 7 [Tree.node 8 []]) 0 (by decide)

/-- C4: for every well-formed tree and every integer n greater or equal 0, prune_small terminates with a result (the fuel bound tsize is proven sufficient), every node of the result has at most n branches (branchBound), and at every node each surviving branch comes from that node's original branch list (the Pruned relation). -/
theorem prune_small_bound_spec (t : Tree) (n : Int) (hn : 0 ≤ n) :
    ∃ t', prune_small t n = .ok t' ∧ branchBound n t' = true ∧ Pruned n t t' :=
  (pruneFuel_total (tsize t)).1 n t hn (le_refl _)

/-- C4 witness: the claim instantiated at the example tree and n = 1. -/
theorem prune_small_bound_witness :
    ∃ t', prune_small tEx 1 = .ok t' ∧ branchBound 1 t' = true ∧ Pruned 1 tEx t' :=
  prune_small_bound_spec tEx 1 (by decide)

/-- C10: the branches surviving at the root after a successful prune_small form a subsequence (List.Sublist: original relative order, no duplication) of the root's original branch list, and each surviving branch is exactly the prune_small result of its original subtree with the same n; the same therefore holds recursively at every node. -/
theorem prune_small_branch_subsequence (t : Tree) (n : Int) (t' : Tree) (_hn : 0 ≤ n)
    (h : prune_small t n = .ok t') :
    ∃ kept, kept.Sublist t.branches ∧ t'.label = t.label ∧
      List.Forall₂ (fun b b' => prune_small b n = .ok b') kept t'.branches := by
  cases t with
  | node l bs =>
    have h' : pruneFuel (tsizeL bs + 1) n (.node l bs) = .ok t' := h
    simp only [pruneFuel] at h'
    cases htrim : trim n bs with
    | error bs' =>
      rw [htrim] at h'
      dsimp only at h'
      simp at h'
    | ok kept =>
      rw [htrim] at h'
      dsimp only at h'
      cases hpl : pruneListFuel (tsizeL bs) n kept with
      | error bs'' =>
        rw [hpl] at h'
        dsimp only at h'
        simp at h'
      | ok bs'' =>
        rw [hpl] at h'
        dsimp only at h'
        injection h' with h2
        subst h2
        refine ⟨kept, trim_ok_sublist htrim, rfl, ?_⟩
        simp only [branches_node]
        exact pruneListFuel_ok_forall₂ (tsizeL bs) n kept bs''
          (tsizeL_sublist_le (trim_ok_sublist htrim)) hpl

/-- C10 witness: the claim instantiated at the example tree, n = 1 and the computed pruned result. -/
theorem prune_small_branch_subsequence_witness :
    ∃ kept, kept.Sublist (tEx).branches ∧
      (Tree.node 1 [Tree.node 2 [Tree.node 4 []]]).label = (tEx).label ∧
      List.Forall₂ (fun b b' => prune_small b 1 = .ok b') kept
        (Tree.node 1 [Tree.node 2 [Tree.node 4 []]]).branches :=
  prune_small_branch_subsequence tEx 1 (Tree.node 1 [Tree.node 2 [Tree.node 4 []]])
    (by decide) rfl

theorem all_tree_filterMap : ∀ bs : List PyVal, bs.all isTreeInstance = true →
    bs = (bs.filterMap fun b =>
      match b with
      | .tree t => some t
      | .other _ => none).map PyVal.tree := by
  intro bs
  induction bs with
  | nil => intro _; rfl
  | cons b bs ih =>
    intro h
    simp only [List.all_cons, Bool.and_eq_true] at h
    cases b with
    | tree t =>
      have hfm : (PyVal.tree t :: bs).filterMap (fun b =>
          match b with
          | PyVal.tree t => some t
          | PyVal.other _ => none) = t :: bs.filterMap (fun b =>
          match b with
          | PyVal.tree t => some t
          | PyVal.other _ => none) := rfl
      rw [hfm, List.map_cons, ← ih h.2]
    | other v => simp [isTreeInstance] at h

/-- C9: constructing a Tree fails with a validation error exactly when some supplied child is not a Tree instance, and succeeds when every supplied child is a Tree, storing exactly the supplied children; the check runs once, inside the constructor. -/
theorem treeInit_validates (label : Int) (bs : List PyVal) :
    (treeInit label bs = .error () ↔ ¬ bs.all isTreeInstance = true) ∧
      (bs.all isTreeInstance = true →
        ∃ ts, treeInit label bs = .ok (.node label ts) ∧ bs = ts.map PyVal.tree) := by
  constructor
  · by_cases h : bs.all isTreeInstance = true
    · simp [treeInit, h]
    · simp [treeInit, h]
  · intro h
    exact ⟨_, by simp [treeInit, h], all_tree_filterMap bs h⟩

/-- C9 witness: the success half of the claim instantiated at a concrete child list all of whose elements are Tree instances. -/
theorem treeInit_witness :
    ∃ ts, treeInit 7 [PyVal.tree (Tree.node 1 [])] = .ok (.node 7 ts) ∧
      [PyVal.tree (Tree.node 1 [])] = ts.map PyVal.tree :=
  (treeInit_validates 7 [PyVal.tree (Tree.node 1 [])]).2 (by decide)

end Trees
